import Mathlib

/-!
# Verification of the Assets graph execution engine

A shallow embedding of the execution-related logic of the Assets node-graph
editor (`src/window.py`, `src/node.py`) together with proofs of the
functional-correctness claims about it: topological sorting (Kahn's algorithm),
cycle detection, level grouping by longest-path depth, fan-in input
aggregation, the per-node result cache, script-output wrapping, and
serialization round-trips.

Canvas nodes are Python objects used only through their identity when the
graph algorithms run; they are modelled here by `Nat` identifiers.  Python
integer arithmetic on in-degrees is modelled by `Int`; the unbounded `while`
loops of the source are modelled by fuel-indexed recursion together with
theorems showing the chosen fuel reaches the loop's exit condition on the
inputs the claims are about.
-/

set_option maxHeartbeats 1000000

namespace Assets

/-- One element of `AssetsCanvas.connections`: the 4-tuple
`(source_node, out_port, target_node, in_port)`. -/
structure Conn where
  src : Nat
  srcPort : Nat
  tgt : Nat
  tgtPort : Nat
  deriving DecidableEq, Repr

/-- The canvas graph: `AssetsCanvas.nodes` (a list of distinct node objects,
modelled by their `Nat` identities) and `AssetsCanvas.connections`. -/
structure Graph where
  nodes : List Nat
  connections : List Conn
  deriving DecidableEq, Repr

/-- `s` has a connection to `t` in `g` (some connection's source is `s` and
target is `t`, ports ignored). -/
def hasEdge (g : Graph) (s t : Nat) : Prop :=
  ∃ c ∈ g.connections, c.src = s ∧ c.tgt = t

/-- The connection set contains at least one (directed) cycle. -/
def Cyclic (g : Graph) : Prop :=
  ∃ n, Relation.TransGen (hasEdge g) n n

/-- The connection set is acyclic. -/
def Acyclic (g : Graph) : Prop := ¬ Cyclic g

/-- Well-formedness maintained by the canvas: the node list holds distinct
objects, and every connection references nodes of the canvas (connections are
created only between existing nodes and are removed when a node is deleted). -/
def WFGraph (g : Graph) : Prop :=
  g.nodes.Nodup ∧ ∀ c ∈ g.connections, c.src ∈ g.nodes ∧ c.tgt ∈ g.nodes

instance (g : Graph) : Decidable (WFGraph g) :=
  inferInstanceAs (Decidable (_ ∧ _))

/-! ## Topological Analyzer (`AssetsCanvas._topological_sort`) -/

/-- The `in_degree` dictionary after the first loop of `_topological_sort`:
start from `{node: 0 for node in self.nodes}`, then `in_degree[target] += 1`
per connection.  Python integers are modelled by `Int`. -/
def initInDegree (conns : List Conn) : Nat → Int :=
  conns.foldl (fun f c => fun t => if t = c.tgt then f t + 1 else f t) (fun _ => 0)

/-- The `adjacency` dictionary of `_topological_sort`: for each connection, in
connection order, `adjacency[source].append(target)`. -/
def adjacencyOf (conns : List Conn) (n : Nat) : List Nat :=
  (conns.filter (fun c => c.src = n)).map (fun c => c.tgt)

/-- Number of connections into `t` whose source has not yet been processed
(not a member of `done`).  Specification-side counting used by the proofs. -/
def countPred (conns : List Conn) (done : List Nat) (t : Nat) : Nat :=
  conns.countP (fun c => c.tgt = t ∧ c.src ∉ done)

/-- The inner `for neighbor in adjacency[node]` loop of Kahn's algorithm:
decrement the in-degree of each neighbor, appending it to the queue when its
in-degree reaches exactly `0`. -/
def relaxTargets : List Nat → (Nat → Int) → List Nat → (Nat → Int) × List Nat
  | [], deg, q => (deg, q)
  | m :: ms, deg, q =>
    let d := deg m - 1
    relaxTargets ms (fun t => if t = m then d else deg t) (if d = 0 then q ++ [m] else q)

/-- The `while queue:` loop of `_topological_sort`: pop the queue's front,
append it to the result, and relax its outgoing connections.  The loop runs at
most `|nodes|` iterations (each one grows `result` by a fresh node), so the
fuel used below always suffices; returns `(result, remaining queue)`. -/
def kahnLoop (conns : List Conn) : Nat → List Nat → (Nat → Int) → List Nat → List Nat × List Nat
  | 0, q, _, res => (res, q)
  | _ + 1, [], _, res => (res, [])
  | fuel + 1, n :: qs, deg, res =>
    let p := relaxTargets (adjacencyOf conns n) deg qs
    kahnLoop conns fuel p.2 p.1 (res ++ [n])

/-- The `result` list built by `_topological_sort` before the length check. -/
def kahnResult (g : Graph) : List Nat :=
  (kahnLoop g.connections (g.nodes.length + 1)
    (g.nodes.filter (fun n => initInDegree g.connections n = 0))
    (initInDegree g.connections) []).1

/-- `AssetsCanvas._topological_sort`: `None` when the result misses some node
(the graph has a cycle), otherwise the execution order. -/
def topological_sort (g : Graph) : Option (List Nat) :=
  let result := kahnResult g
  if result.length ≠ g.nodes.length then none else some result

/-- Invariant of the state of Kahn's inner relaxation loop while the popped
node `n` still has the targets `ms` left to process; `res'` is the result list
with `n` already appended.  `deg` counts, per node, the connections whose
source is still unprocessed (pending occurrences in `ms` included); queue
members have no unprocessed predecessors at all; every unprocessed node with
no unprocessed predecessors is queued; the processed list and the queue are
mutually fresh. -/
structure RelaxInv (conns : List Conn) (nodes : List Nat) (n : Nat) (res' : List Nat)
    (ms : List Nat) (deg : Nat → Int) (q : List Nat) : Prop where
  degEq : ∀ t, deg t = (countPred conns res' t : Int) + (ms.count t : Int)
  qZero : ∀ m ∈ q, countPred conns res' m = 0 ∧ ms.count m = 0
  complete : ∀ t ∈ nodes, t ∉ res' → countPred conns res' t = 0 → ms.count t = 0 → t ∈ q
  nodup : (res' ++ q).Nodup
  qSub : ∀ m ∈ q, m ∈ nodes
  msEdge : ∀ m ∈ ms, ∃ c ∈ conns, c.src = n ∧ c.tgt = m

/-- Invariant of the state of Kahn's outer loop between iterations: `deg` is
the number of connections from unprocessed sources, queue members are
unprocessed nodes with no unprocessed predecessors, every unprocessed
unqueued node still has an unprocessed predecessor, and the result respects
the connection order. -/
structure KahnInv (conns : List Conn) (nodes : List Nat) (q : List Nat) (deg : Nat → Int)
    (res : List Nat) : Prop where
  degEq : ∀ t, deg t = (countPred conns res t : Int)
  qSub : ∀ m ∈ q, m ∈ nodes
  nodup : (res ++ q).Nodup
  complete : ∀ t ∈ nodes, t ∉ res → t ∉ q → countPred conns res t ≠ 0
  resSub : ∀ m ∈ res, m ∈ nodes
  sorted : ∀ c ∈ conns, c.tgt ∈ res → [c.src, c.tgt].Sublist res
  qZero : ∀ m ∈ q, countPred conns res m = 0

/-! ## Level Grouper (`AssetsCanvas._group_by_execution_level`) -/

/-- The `predecessors` dictionary: per connection, in connection order,
`predecessors[target].append(source)`. -/
def predecessorsOf (conns : List Conn) (t : Nat) : List Nat :=
  (conns.filter (fun c => c.tgt = t)).map (fun c => c.src)

/-- The body of the `for node in self.nodes` relaxation pass for one node:
when the node has predecessors, compute `max(depth[pred] for pred in preds) + 1`
and raise the node's depth (setting the `changed` flag) if this is larger. -/
def relaxNode (conns : List Conn) (st : (Nat → Nat) × Bool) (node : Nat) : (Nat → Nat) × Bool :=
  match predecessorsOf conns node with
  | [] => st
  | p :: ps =>
    let newDepth := (ps.map st.1).foldl max (st.1 p) + 1
    if st.1 node < newDepth then
      ((fun t => if t = node then newDepth else st.1 t), true)
    else st

/-- One iteration of the `while changed:` loop: `changed = False`, then one
relaxation pass over all nodes (in node order, seeing in-place updates). -/
def relaxPass (nodes : List Nat) (conns : List Conn) (depth : Nat → Nat) : (Nat → Nat) × Bool :=
  nodes.foldl (relaxNode conns) (depth, false)

/-- The `while changed:` loop, fuel-indexed.  The second component is `true`
iff the loop exited because a full pass made no change (the source's loop only
terminates in that situation; the fuel below provably suffices whenever the
graph is acyclic, the only case in which the source loop terminates). -/
def relaxLoop (nodes : List Nat) (conns : List Conn) : Nat → (Nat → Nat) → (Nat → Nat) × Bool
  | 0, depth => (depth, false)
  | fuel + 1, depth =>
    let p := relaxPass nodes conns depth
    if p.2 then relaxLoop nodes conns fuel p.1 else (depth, true)

/-- The depth map computed by `_group_by_execution_level` (starting from
`{node: 0 for node in self.nodes}`), plus the flag telling whether the
relaxation reached its fixed point within the fuel. -/
def depthResult (g : Graph) : (Nat → Nat) × Bool :=
  relaxLoop g.nodes g.connections (g.nodes.length * g.nodes.length + 1) (fun _ => 0)

/-- `AssetsCanvas._group_by_execution_level`: group the nodes by depth,
`levels[depth[node]].append(node)` over nodes in node order, with
`max_depth = max(depth.values())` (`0` for the empty graph). -/
def group_by_execution_level (g : Graph) : List (List Nat) :=
  let depth := (depthResult g).1
  let maxDepth := (g.nodes.map depth).foldl max 0
  (List.range (maxDepth + 1)).map (fun i => g.nodes.filter (fun n => depth n = i))

/-- Invariant maintained by the depth relaxation: depths are zero off the
node set and on predecessor-free nodes, and never exceed one more than the
maximum current depth of the predecessors. -/
structure DepthInv (conns : List Conn) (nodes : List Nat) (d : Nat → Nat) : Prop where
  offNodes : ∀ t, t ∉ nodes → d t = 0
  noPreds : ∀ t, predecessorsOf conns t = [] → d t = 0
  upper : ∀ t p ps, predecessorsOf conns t = p :: ps →
    d t ≤ (ps.map d).foldl max (d p) + 1

/-! ## Execution engine skeleton (`AssetsCanvas.execute_graph`) -/

/-- The control-flow outcome of `execute_graph` up to the point where per-node
script execution starts: `noNodes` is the `if not self.nodes: return False`
early exit, `cyclicGraph` the `return False` after `_topological_sort` comes
back `None` (the Level Grouper is not invoked and no node is executed on
either exit), and `ran levels` records that the Level Grouper was invoked and
level-by-level execution proceeded over `levels`. -/
inductive ExecOutcome where
  | noNodes
  | cyclicGraph
  | ran (levels : List (List Nat))
  deriving DecidableEq, Repr

/-- The decision structure at the head of `execute_graph`. -/
def execute_graph_outcome (g : Graph) : ExecOutcome :=
  if g.nodes = [] then .noNodes
  else
    match topological_sort g with
    | none => .cyclicGraph
    | some _ => .ran (group_by_execution_level g)

/-- The `bool` returned by `execute_graph` when it aborts before executing any
node (`some false` on both early exits); `none` when execution proceeded and
the return value depends on the user scripts. -/
def ExecOutcome.earlyReturn : ExecOutcome → Option Bool
  | .noNodes => some false
  | .cyclicGraph => some false
  | .ran _ => none

/-- The levels handed back by the Level Grouper, when it was invoked at all. -/
def ExecOutcome.grouperLevels : ExecOutcome → Option (List (List Nat))
  | .noNodes => none
  | .cyclicGraph => none
  | .ran ls => some ls

/-- The nodes submitted for execution: none at all on either early exit,
every node of every level otherwise. -/
def ExecOutcome.nodesExecuted : ExecOutcome → List Nat
  | .noNodes => []
  | .cyclicGraph => []
  | .ran ls => ls.flatten

/-! ## Values flowing between nodes -/

/-- Python values produced and consumed by node scripts, as far as the engine
inspects them: `none` models Python `None`, `tuple` the tuples used as
input/output packs, `list` the lists built by fan-in aggregation (or returned
by scripts).  Everything else a script may return is inert for the engine and
is represented by `int`/`str` payloads. -/
inductive Value where
  | none
  | int (n : Int)
  | str (s : String)
  | tuple (vs : List Value)
  | list (vs : List Value)

/-- `isinstance(v, tuple)`. -/
def Value.isTuple : Value → Bool
  | .tuple _ => true
  | _ => false

/-- Modelled from the spec: the spec's word "sequence" read with Python's
meaning, where both tuples and lists are sequences.  Used only to compare the
spec's wrapping rule with the source's tuple-only check. -/
def Value.isPySequence : Value → Bool
  | .tuple _ => true
  | .list _ => true
  | _ => false

/-- The elements of a sequence value (tuple or list), for stating the spec's
"passed through unwrapped" reading. -/
def Value.seqElems : Value → List Value
  | .tuple vs => vs
  | .list vs => vs
  | _ => []

mutual

/-- Python `repr` on modelled values, used by `Node._hash_inputs` which
fingerprints an input tuple as `hash(repr(inputs))`.  The `hash` step is a
non-injective compression of this string; the model keeps the string itself
(collisions are a tolerated performance matter in the source, and no claim
depends on them). -/
def pyRepr : Value → String
  | .none => "None"
  | .int n => toString n
  | .str s => "'" ++ s ++ "'"
  | .tuple vs => "(" ++ pyReprList vs ++ ")"
  | .list vs => "[" ++ pyReprList vs ++ "]"

/-- Comma-separated `repr` of a list of values. -/
def pyReprList : List Value → String
  | [] => ""
  | [v] => pyRepr v
  | v :: vs => pyRepr v ++ ", " ++ pyReprList vs

end

/-! ## Input Aggregator (`AssetsCanvas._collect_node_inputs`) -/

/-- The `connections_per_port[port]` list built by `_collect_node_inputs` for
target `node`: walk the connections in order; a connection landing on
`(node, port)` contributes `node_results[source][out_port]` — but only when the
source has an entry in the result store and the out-port index is within that
entry's length, otherwise the connection is silently skipped. -/
def portContributions (conns : List Conn) (node : Nat)
    (results : Nat → Option (List Value)) (port : Nat) : List Value :=
  conns.filterMap (fun c =>
    if c.tgt = node ∧ c.tgtPort = port then
      match results c.src with
      | some outs => outs.get? c.srcPort
      | Option.none => Option.none
    else Option.none)

/-- The per-port decision of `_collect_node_inputs`: no contribution keeps
`None`, one contribution is passed unwrapped, two or more become a list. -/
def aggregateInput : List Value → Value
  | [] => Value.none
  | [v] => v
  | vs => Value.list vs

/-- `AssetsCanvas._collect_node_inputs`: the input tuple (one entry per input
port) assembled from the result store. -/
def collect_node_inputs (conns : List Conn) (node : Nat) (numInputs : Nat)
    (results : Nat → Option (List Value)) : List Value :=
  (List.range numInputs).map (fun p => aggregateInput (portContributions conns node results p))

/-! ## Node data model and Result Cache (`src/node.py`) -/

/-- The fields of `Node` the engine reads or writes: identity/serialization
fields plus the cache triple `_last_inputs` (the `repr`-fingerprint of the
last input tuple), `_last_outputs`, `_cache_valid`.  Rendering-only state
(position offsets, selection, port coordinates) is not modelled. -/
structure Node where
  id : String
  x : Int
  y : Int
  title : String
  num_inputs : Nat
  num_outputs : Nat
  code : String
  lastInputs : Option String
  lastOutputs : Option (List Value)
  cacheValid : Bool

/-- `Node.__init__`: the id is the given `node_id` when it is truthy (not
`None` and not the empty string), otherwise the freshly generated
`str(uuid.uuid4())` (passed in as `freshId`; it is never empty).  The script
starts empty and the cache invalid. -/
def mkNode (x y : Int) (title : String) (num_inputs num_outputs : Nat)
    (node_id : Option String) (freshId : String) : Node :=
  { id := match node_id with
      | some s => if s = "" then freshId else s
      | Option.none => freshId
    x := x, y := y, title := title
    num_inputs := num_inputs, num_outputs := num_outputs
    code := ""
    lastInputs := Option.none, lastOutputs := Option.none, cacheValid := false }

/-- `Node._hash_inputs`: `hash(repr(inputs))`; the `try/except` branch that
returns `None` cannot fire on modelled values, so the result is always the
fingerprint. -/
def hash_inputs (inputs : List Value) : Option String :=
  some ("(" ++ pyReprList inputs ++ ")")

/-- `Node.get_cached_result`: `(None, False)` when the cache is invalid or the
fingerprint of `inputs` differs from the stored one, else the stored outputs
with a hit flag. -/
def get_cached_result (n : Node) (inputs : List Value) : Option (List Value) × Bool :=
  if n.cacheValid = false then (Option.none, false)
  else
    match hash_inputs inputs with
    | Option.none => (Option.none, false)
    | some h => if some h ≠ n.lastInputs then (Option.none, false) else (n.lastOutputs, true)

/-- `Node.set_cache`: store the fingerprint and the outputs, mark valid. -/
def set_cache (n : Node) (inputs outputs : List Value) : Node :=
  { n with lastInputs := hash_inputs inputs, lastOutputs := some outputs, cacheValid := true }

/-- `Node.invalidate_cache`. -/
def invalidate_cache (n : Node) : Node :=
  { n with cacheValid := false, lastInputs := Option.none, lastOutputs := Option.none }

/-- The `Node.code` property setter: reassigning a different script text
stores it and invalidates the cache; reassigning the same text is a no-op. -/
def set_code (n : Node) (value : String) : Node :=
  if n.code ≠ value then invalidate_cache { n with code := value } else n

/-- Python `str.strip()` restricted to the whitespace characters that can
occur in modelled script texts. -/
def pyStrip (s : String) : String :=
  ⟨((s.data.dropWhile fun c => c = ' ' ∨ c = '\t' ∨ c = '\n' ∨ c = '\r').reverse.dropWhile
      fun c => c = ' ' ∨ c = '\t' ∨ c = '\n' ∨ c = '\r').reverse⟩

/-- `if not isinstance(result, tuple): result = (result,)` — the wrapping at
the end of `_execute_node_code`; the resulting Python tuple is modelled as the
`List Value` of the node's outputs. -/
def wrapResult : Value → List Value
  | .tuple vs => vs
  | v => [v]

/-- `AssetsCanvas._execute_node_code`, with the Python `exec` of the script
body abstracted by `run` (the value the script's implicit function returns for
the given script text and input tuple).  Returns
`(outputs, node state afterwards, from_cache)`: an empty/whitespace-only
script passes the inputs through; otherwise a valid cache hit returns the
stored outputs, and a miss runs the script, wraps its result and caches it. -/
def execute_node_code (run : String → List Value → Value) (node : Node)
    (inputs : List Value) : List Value × Node × Bool :=
  if node.code = "" ∨ pyStrip node.code = "" then (inputs, node, false)
  else
    match get_cached_result node inputs with
    | (r, true) => (r.getD [], node, true)
    | (_, false) =>
      let result := wrapResult (run node.code inputs)
      (result, set_cache node inputs result, false)

/-! ## Serialization (`Node.to_dict` / `Node.from_dict`) -/

/-- The dictionary produced by `Node.to_dict` (all keys always present). -/
structure NodeDict where
  id : String
  x : Int
  y : Int
  title : String
  num_inputs : Nat
  num_outputs : Nat
  code : String
  deriving DecidableEq, Repr

/-- `Node.to_dict`. -/
def to_dict (n : Node) : NodeDict :=
  { id := n.id, x := n.x, y := n.y, title := n.title
    num_inputs := n.num_inputs, num_outputs := n.num_outputs, code := n.code }

/-- `Node.from_dict`: construct via `Node.__init__` with the stored id, then
assign the stored code through the `code` setter.  `freshId` is the uuid that
`__init__` would generate if the stored id were falsy. -/
def from_dict (d : NodeDict) (freshId : String) : Node :=
  set_code (mkNode d.x d.y d.title d.num_inputs d.num_outputs (some d.id) freshId) d.code

/-! ## Concrete sample data used by the witnesses -/

/-- A concrete node used by witnesses: id `"abc"` at `(3, 4)`, two inputs,
one output, a non-trivial script, fresh cache. -/
def sampleNode : Node :=
  ⟨"abc", 3, 4, "Sum", 2, 1, "return inputs[0] + inputs[1]", Option.none, Option.none, false⟩

/-- A concrete acyclic graph: the chain `0 → 1 → 2`. -/
def gChain : Graph := ⟨[0, 1, 2], [⟨0, 0, 1, 0⟩, ⟨1, 0, 2, 0⟩]⟩

/-- A concrete cyclic graph: `0 → 1 → 0`. -/
def gCycle : Graph := ⟨[0, 1], [⟨0, 0, 1, 0⟩, ⟨1, 0, 0, 0⟩]⟩

/-- A concrete diamond graph: `0 → 1, 0 → 2, 1 → 3, 2 → 3`. -/
def gDiamond : Graph :=
  ⟨[0, 1, 2, 3], [⟨0, 0, 1, 0⟩, ⟨0, 0, 2, 0⟩, ⟨1, 0, 3, 0⟩, ⟨2, 0, 3, 1⟩]⟩

/-! ## Helper lemmas -/

lemma pyStrip_empty : pyStrip "" = "" := rfl

lemma script_cond_false {s : String} (h : pyStrip s ≠ "") : ¬(s = "" ∨ pyStrip s = "") := by
  rintro (rfl | h2)
  · exact h pyStrip_empty
  · exact h h2

lemma aggregateInput_nil : aggregateInput [] = Value.none := rfl

lemma aggregateInput_single (v : Value) : aggregateInput [v] = v := rfl

lemma aggregateInput_of_two_le (vs : List Value) (h : 2 ≤ vs.length) :
    aggregateInput vs = Value.list vs := by
  match vs with
  | [] => simp at h
  | [v] => simp at h
  | a :: b :: rest => rfl

lemma collect_get (conns : List Conn) (node : Nat) (results : Nat → Option (List Value))
    (numInputs port : Nat) (hp : port < numInputs) :
    (collect_node_inputs conns node numInputs results).get? port =
      some (aggregateInput (portContributions conns node results port)) := by
  unfold collect_node_inputs
  rw [List.get?_map, List.get?_range hp]
  rfl

/-! ## Claim theorems -/

/-- C5: for a target node and one of its input port indices, the aggregated
input is `None` when no connection contributes to the port, the single
produced value unwrapped when exactly one contributes, and the ordered list of
produced values (in connection order) when two or more contribute; the
decision uses only that port's own contribution list. -/
theorem fan_in_aggregation (conns : List Conn) (node : Nat)
    (results : Nat → Option (List Value)) (numInputs port : Nat) (hp : port < numInputs) :
    (portContributions conns node results port = [] →
      (collect_node_inputs conns node numInputs results).get? port = some Value.none) ∧
    (∀ v, portContributions conns node results port = [v] →
      (collect_node_inputs conns node numInputs results).get? port = some v) ∧
    (2 ≤ (portContributions conns node results port).length →
      (collect_node_inputs conns node numInputs results).get? port =
        some (Value.list (portContributions conns node results port))) := by
  refine ⟨fun h0 => ?_, fun v h1 => ?_, fun h2 => ?_⟩
  · rw [collect_get conns node results numInputs port hp, h0, aggregateInput_nil]
  · rw [collect_get conns node results numInputs port hp, h1, aggregateInput_single]
  · rw [collect_get conns node results numInputs port hp, aggregateInput_of_two_le _ h2]

/-- Witness for C5: a port fed by sources producing `5` and `7` aggregates to
the list `[5, 7]`, a port fed by one connection gets the unwrapped value, and
an unconnected port gets `None`. -/
theorem fan_in_aggregation_witness :
    (0 < 2 ∧
      (collect_node_inputs [⟨0, 0, 2, 0⟩, ⟨1, 0, 2, 0⟩] 2 2
          (fun s => if s = 0 then some [Value.int 5] else
            if s = 1 then some [Value.int 7] else Option.none)).get? 0 =
        some (Value.list [Value.int 5, Value.int 7])) ∧
    (collect_node_inputs [⟨0, 0, 2, 0⟩, ⟨1, 0, 2, 0⟩] 2 2
        (fun s => if s = 0 then some [Value.int 5] else
          if s = 1 then some [Value.int 7] else Option.none)).get? 1 = some Value.none := by
  refine ⟨⟨by decide, ?_⟩, ?_⟩
  · exact ((fan_in_aggregation [⟨0, 0, 2, 0⟩, ⟨1, 0, 2, 0⟩] 2
      (fun s => if s = 0 then some [Value.int 5] else
        if s = 1 then some [Value.int 7] else Option.none) 2 0 (by decide)).2.2 (by rfl)).trans
      (by rfl)
  · exact (fan_in_aggregation [⟨0, 0, 2, 0⟩, ⟨1, 0, 2, 0⟩] 2
      (fun s => if s = 0 then some [Value.int 5] else
        if s = 1 then some [Value.int 7] else Option.none) 2 1 (by decide)).1 (by rfl)

/-- C8: running the graph with an empty node set returns `False` immediately,
before cycle validation or level computation. -/
theorem empty_graph_returns_false (conns : List Conn) :
    execute_graph_outcome ⟨[], conns⟩ = ExecOutcome.noNodes ∧
    (execute_graph_outcome ⟨[], conns⟩).earlyReturn = some false ∧
    (execute_graph_outcome ⟨[], conns⟩).grouperLevels = Option.none := by
  refine ⟨rfl, ?_, ?_⟩ <;> rfl

/-- C9: a connection into `(node, port)` whose source has no entry in the
result store, or whose source output index is out of range for the stored
output tuple, contributes nothing: the port's contribution list is as if the
connection were absent. -/
theorem unavailable_source_skipped (pre post : List Conn) (c : Conn) (node port : Nat)
    (results : Nat → Option (List Value)) (htgt : c.tgt = node) (hport : c.tgtPort = port)
    (hskip : results c.src = Option.none ∨
      ∀ outs, results c.src = some outs → outs.length ≤ c.srcPort) :
    portContributions (pre ++ c :: post) node results port =
      portContributions (pre ++ post) node results port := by
  unfold portContributions
  rw [List.filterMap_append, List.filterMap_append, List.filterMap_cons]
  have hdrop :
      (if c.tgt = node ∧ c.tgtPort = port then
        match results c.src with
        | some outs => outs.get? c.srcPort
        | Option.none => Option.none
      else Option.none) = (Option.none : Option Value) := by
    rw [if_pos ⟨htgt, hport⟩]
    rcases hskip with h | h
    · rw [h]
    · cases hres : results c.src with
      | none => rfl
      | some outs => exact List.get?_eq_none.mpr (h outs hres)
  rw [hdrop]

/-- Witness for C9: with the second source missing from the result store, a
two-connection fan-in port collapses to the single unwrapped value `5`. -/
theorem unavailable_source_skipped_witness :
    ((⟨1, 0, 2, 0⟩ : Conn).tgt = 2 ∧
      portContributions [⟨0, 0, 2, 0⟩, ⟨1, 0, 2, 0⟩] 2
          (fun s => if s = 0 then some [Value.int 5] else Option.none) 0 =
        portContributions [⟨0, 0, 2, 0⟩] 2
          (fun s => if s = 0 then some [Value.int 5] else Option.none) 0) ∧
    aggregateInput (portContributions [⟨0, 0, 2, 0⟩, ⟨1, 0, 2, 0⟩] 2
        (fun s => if s = 0 then some [Value.int 5] else Option.none) 0) = Value.int 5 := by
  have h := unavailable_source_skipped [⟨0, 0, 2, 0⟩] [] ⟨1, 0, 2, 0⟩ 2 0
    (fun s => if s = 0 then some [Value.int 5] else Option.none) rfl rfl (Or.inl rfl)
  refine ⟨⟨rfl, h⟩, ?_⟩
  rw [show portContributions [⟨0, 0, 2, 0⟩, ⟨1, 0, 2, 0⟩] 2
    (fun s => if s = 0 then some [Value.int 5] else Option.none) 0 = [Value.int 5] from rfl]
  rfl

/-- C10: serializing a node with `to_dict` and restoring it with `from_dict`
preserves id, position, title, port counts and script code (every constructed
node has a non-empty id, since a falsy `node_id` is replaced by a uuid). -/
theorem node_roundtrip (n : Node) (freshId : String) (hid : n.id ≠ "") :
    (from_dict (to_dict n) freshId).id = n.id ∧
    (from_dict (to_dict n) freshId).x = n.x ∧
    (from_dict (to_dict n) freshId).y = n.y ∧
    (from_dict (to_dict n) freshId).title = n.title ∧
    (from_dict (to_dict n) freshId).num_inputs = n.num_inputs ∧
    (from_dict (to_dict n) freshId).num_outputs = n.num_outputs ∧
    (from_dict (to_dict n) freshId).code = n.code := by
  unfold from_dict to_dict mkNode set_code invalidate_cache
  by_cases hc : n.code = ""
  · simp [hc, hid]
  · simp [Ne.symm hc, hid]

/-- Witness for C10: round-tripping a concrete node preserves all serialized
fields. -/
theorem node_roundtrip_witness :
    sampleNode.id ≠ "" ∧ (from_dict (to_dict sampleNode) "fresh-uuid").id = sampleNode.id := by
  refine ⟨by decide, ?_⟩
  exact (node_roundtrip sampleNode "fresh-uuid" (by decide)).1

/-- C6: for a node with a non-empty (non-whitespace) script and a fresh cache,
executing twice with the same input tuple runs the script only once — the
first run is a miss, the second returns the first run's outputs with a cache
hit — and reassigning the script text to a different value invalidates the
cache so that the next execution with the same inputs is a miss again. -/
theorem cache_hit_and_invalidation (run : String → List Value → Value) (n : Node)
    (inputs : List Value) (newCode : String) (hcode : pyStrip n.code ≠ "")
    (hfresh : n.cacheValid = false) (hnew : newCode ≠ n.code) (hnewcode : pyStrip newCode ≠ "") :
    (execute_node_code run n inputs).2.2 = false ∧
    (execute_node_code run (execute_node_code run n inputs).2.1 inputs).2.2 = true ∧
    (execute_node_code run (execute_node_code run n inputs).2.1 inputs).1 =
      (execute_node_code run n inputs).1 ∧
    (set_code (execute_node_code run (execute_node_code run n inputs).2.1 inputs).2.1
      newCode).cacheValid = false ∧
    (execute_node_code run
      (set_code (execute_node_code run (execute_node_code run n inputs).2.1 inputs).2.1 newCode)
      inputs).2.2 = false := by
  have hcond := script_cond_false hcode
  have h1 : execute_node_code run n inputs =
      (wrapResult (run n.code inputs),
        set_cache n inputs (wrapResult (run n.code inputs)), false) := by
    unfold execute_node_code
    rw [if_neg hcond]
    unfold get_cached_result
    rw [if_pos hfresh]
  have hstate : (execute_node_code run n inputs).2.1 =
      set_cache n inputs (wrapResult (run n.code inputs)) := by rw [h1]
  set out := wrapResult (run n.code inputs) with hout
  have hcode1 : (set_cache n inputs out).code = n.code := rfl
  have h2 : execute_node_code run (set_cache n inputs out) inputs = (out, set_cache n inputs out, true) := by
    unfold execute_node_code
    rw [hcode1, if_neg hcond]
    unfold get_cached_result
    have hv : (set_cache n inputs out).cacheValid = true := rfl
    rw [hv]
    simp only [Bool.true_eq_false, if_false, hash_inputs, set_cache, ne_eq, not_not]
    rw [if_neg (by simp)]
    rfl
  have h3 : set_code (set_cache n inputs out) newCode =
      invalidate_cache { set_cache n inputs out with code := newCode } := by
    unfold set_code
    rw [if_pos (by rw [hcode1]; exact fun h => hnew h.symm)]
  have hinv : (invalidate_cache { set_cache n inputs out with code := newCode }).cacheValid
      = false := rfl
  have hinvcode : (invalidate_cache { set_cache n inputs out with code := newCode }).code
      = newCode := rfl
  refine ⟨by rw [h1], ?_, ?_, ?_, ?_⟩
  · rw [hstate, h2]
  · rw [hstate, h2, h1]
  · rw [hstate, h2]
    simp only
    rw [h3]
    exact hinv
  · rw [hstate, h2]
    simp only
    rw [h3]
    unfold execute_node_code
    rw [hinvcode, if_neg (script_cond_false hnewcode)]
    unfold get_cached_result
    rw [if_pos hinv]

/-- Witness for C6: a concrete sum node run twice on the same inputs hits the
cache the second time, and changing its script forces a miss. -/
theorem cache_hit_and_invalidation_witness :
    (pyStrip sampleNode.code ≠ "" ∧ sampleNode.cacheValid = false ∧
      ("return 0" : String) ≠ sampleNode.code ∧ pyStrip "return 0" ≠ "") ∧
    ((execute_node_code (fun _ _ => Value.int 7) sampleNode [Value.int 3, Value.int 4]).2.2
        = false ∧
      (execute_node_code (fun _ _ => Value.int 7)
        (execute_node_code (fun _ _ => Value.int 7) sampleNode
          [Value.int 3, Value.int 4]).2.1 [Value.int 3, Value.int 4]).2.2 = true) := by
  have h := cache_hit_and_invalidation (fun _ _ => Value.int 7) sampleNode
    [Value.int 3, Value.int 4] "return 0" (by decide) (by decide) (by decide) (by decide)
  exact ⟨⟨by decide, by decide, by decide, by decide⟩, h.1, h.2.1⟩

/-- C7 counterexample: a script returning the Python list `[5]` returns a
sequence, yet the engine does not pass it through unwrapped — the node's
output tuple is `([5],)`, not `(5,)`, because the source checks
`isinstance(result, tuple)` only. -/
theorem list_output_not_passed_through :
    (Value.list [Value.int 5]).isPySequence = true ∧
    (execute_node_code (fun _ _ => Value.list [Value.int 5])
        (set_code sampleNode "return [5]") []).1 = [Value.list [Value.int 5]] ∧
    (execute_node_code (fun _ _ => Value.list [Value.int 5])
        (set_code sampleNode "return [5]") []).1 ≠ (Value.list [Value.int 5]).seqElems := by
  refine ⟨rfl, rfl, ?_⟩
  intro h
  rw [show (execute_node_code (fun _ _ => Value.list [Value.int 5])
      (set_code sampleNode "return [5]") []).1 = [Value.list [Value.int 5]] from rfl] at h
  simp [Value.seqElems] at h

/-- C7 amended: on every script evaluation (non-whitespace script, cache
miss), a returned value that is not already a *tuple* is wrapped into a
one-element tuple, and a returned tuple is passed through unwrapped as the
node's output tuple; in particular a returned list, although a Python
sequence, is wrapped. -/
theorem tuple_passthrough_amended (run : String → List Value → Value) (node : Node)
    (inputs : List Value) (hcode : pyStrip node.code ≠ "") (hmiss : node.cacheValid = false) :
    ((run node.code inputs).isTuple = false →
      (execute_node_code run node inputs).1 = [run node.code inputs]) ∧
    (∀ vs, run node.code inputs = Value.tuple vs →
      (execute_node_code run node inputs).1 = vs) := by
  have h1 : (execute_node_code run node inputs).1 = wrapResult (run node.code inputs) := by
    unfold execute_node_code
    rw [if_neg (script_cond_false hcode)]
    unfold get_cached_result
    rw [if_pos hmiss]
  constructor
  · intro hnt
    rw [h1]
    cases hv : run node.code inputs with
    | tuple vs => rw [hv] at hnt; simp [Value.isTuple] at hnt
    | none => rfl
    | int m => rfl
    | str s => rfl
    | list vs => rfl
  · intro vs hv
    rw [h1, hv]
    rfl

/-- Witness for C7's amended statement: a script returning the tuple `(5, 7)`
yields the output tuple `(5, 7)` unwrapped. -/
theorem tuple_passthrough_witness :
    (pyStrip sampleNode.code ≠ "" ∧ sampleNode.cacheValid = false) ∧
    (execute_node_code (fun _ _ => Value.tuple [Value.int 5, Value.int 7]) sampleNode []).1 =
      [Value.int 5, Value.int 7] := by
  refine ⟨⟨by decide, by decide⟩, ?_⟩
  exact (tuple_passthrough_amended (fun _ _ => Value.tuple [Value.int 5, Value.int 7])
    sampleNode [] (by decide) (by decide)).2 [Value.int 5, Value.int 7] rfl

/-! ## Counting lemmas for Kahn's algorithm -/

lemma countP_split (l : List Conn) (p qb rb : Conn → Bool)
    (h : ∀ a ∈ l, (if p a then 1 else 0) = (if qb a then 1 else 0) + (if rb a then 1 else 0)) :
    l.countP p = l.countP qb + l.countP rb := by
  induction l with
  | nil => simp
  | cons c cs ih =>
    rw [List.countP_cons, List.countP_cons, List.countP_cons,
      ih (fun a ha => h a (List.mem_cons_of_mem c ha))]
    have := h c (List.mem_cons_self c cs)
    omega

lemma initInDegree_go (conns : List Conn) (f : Nat → Int) (t : Nat) :
    conns.foldl (fun f c => fun t => if t = c.tgt then f t + 1 else f t) f t =
      f t + (countPred conns [] t : Int) := by
  induction conns generalizing f with
  | nil => simp [countPred]
  | cons c cs ih =>
    rw [List.foldl_cons, ih]
    unfold countPred
    rw [List.countP_cons]
    by_cases h : t = c.tgt
    · have hp : (decide (c.tgt = t ∧ c.src ∉ ([] : List Nat))) = true := by
        simp [h.symm]
      rw [if_pos h, hp]
      simp
      omega
    · have h' : ¬ c.tgt = t := fun hh => h hh.symm
      have hp : (decide (c.tgt = t ∧ c.src ∉ ([] : List Nat))) = false := by
        simp [h']
      rw [if_neg h, hp]
      simp

lemma initInDegree_eq (conns : List Conn) (t : Nat) :
    initInDegree conns t = (countPred conns [] t : Int) := by
  unfold initInDegree
  rw [initInDegree_go]
  simp

lemma adjacency_count (conns : List Conn) (n t : Nat) :
    (adjacencyOf conns n).count t = conns.countP (fun c => decide (c.src = n ∧ c.tgt = t)) := by
  induction conns with
  | nil => rfl
  | cons c cs ih =>
    unfold adjacencyOf at ih ⊢
    rw [List.countP_cons]
    by_cases hs : c.src = n
    · rw [List.filter_cons_of_pos (by simp [hs]), List.map_cons, List.count_cons, ih]
      by_cases ht : c.tgt = t
      · simp [hs, ht]
      · have hne : ¬(c.src = n ∧ c.tgt = t) := fun hh => ht hh.2
        have ht' : ¬ t = c.tgt := fun hh => ht hh.symm
        simp [hne, ht', ht]
    · rw [List.filter_cons_of_neg (by simp [hs]), ih]
      have hne : ¬(c.src = n ∧ c.tgt = t) := fun hh => hs hh.1
      simp [hne]

/-- Partitioning the pending connections into a target: connections from
unprocessed sources split into those from sources other than `n` and those
from `n` itself, once `n` is processed. -/
lemma countPred_snoc (conns : List Conn) (done : List Nat) (n t : Nat) (hn : n ∉ done) :
    countPred conns done t = countPred conns (done ++ [n]) t + (adjacencyOf conns n).count t := by
  rw [adjacency_count]
  unfold countPred
  apply countP_split
  intro c _
  by_cases ht : c.tgt = t
  · by_cases hsn : c.src = n
    · rw [if_pos (by simp [ht, hsn, hn]), if_neg (by simp [hsn]), if_pos (by simp [hsn, ht])]
    · by_cases hsd : c.src ∈ done
      · rw [if_neg (by simp [hsd]), if_neg (by simp [ht, hsd]), if_neg (by simp [hsn])]
      · rw [if_pos (by simp [ht, hsd]), if_pos (by simp [ht, hsd, hsn]),
          if_neg (by simp [hsn])]
  · rw [if_neg (by simp [ht]), if_neg (by simp [ht]), if_neg (by simp [ht])]

lemma countPred_zero_src_mem {conns : List Conn} {done : List Nat} {t : Nat}
    (h : countPred conns done t = 0) {c : Conn} (hc : c ∈ conns) (htgt : c.tgt = t) :
    c.src ∈ done := by
  by_contra hs
  have hpos : 0 < countPred conns done t := by
    apply List.countP_pos.mpr
    exact ⟨c, hc, by simp [htgt, hs]⟩
  omega

/-! ## The inner relaxation loop preserves the invariant -/

lemma relaxTargets_inv (conns : List Conn) (nodes : List Nat) (n : Nat) (res : List Nat)
    (hsorted : ∀ c ∈ conns, c.tgt ∈ res → [c.src, c.tgt].Sublist res)
    (hself : countPred conns res n = 0) (hnres : n ∉ res)
    (hWF : ∀ c ∈ conns, c.src ∈ nodes ∧ c.tgt ∈ nodes) :
    ∀ (ms : List Nat) (deg : Nat → Int) (q : List Nat),
      RelaxInv conns nodes n (res ++ [n]) ms deg q →
      RelaxInv conns nodes n (res ++ [n]) [] (relaxTargets ms deg q).1
        (relaxTargets ms deg q).2 := by
  intro ms
  induction ms with
  | nil => intro deg q inv; exact inv
  | cons m ms ih =>
    intro deg q inv
    rw [relaxTargets]
    apply ih
    have hdm : deg m = (countPred conns (res ++ [n]) m : Int) + (ms.count m : Int) + 1 := by
      rw [inv.degEq m, List.count_cons_self]
      push_cast
      ring
    have hmq : m ∉ q := by
      intro hq
      have := (inv.qZero m hq).2
      rw [List.count_cons_self] at this
      omega
    constructor
    · -- degEq
      intro t
      by_cases htm : t = m
      · subst htm
        rw [if_pos rfl, hdm]
        ring
      · rw [if_neg htm, inv.degEq t, List.count_cons_of_ne htm]
    · -- qZero
      intro m' hm'
      by_cases hd : deg m - 1 = 0
      · rw [if_pos hd] at hm'
        rcases List.mem_append.mp hm' with hq | hmm
        · have hz := inv.qZero m' hq
          refine ⟨hz.1, ?_⟩
          have := hz.2
          rcases eq_or_ne m' m with rfl | hne
          · exact absurd hq hmq
          · rwa [List.count_cons_of_ne hne] at this
        · have hmm' : m' = m := by simpa using hmm
          subst hmm'
          have : (countPred conns (res ++ [n]) m' : Int) + (ms.count m' : Int) = 0 := by
            omega
          constructor <;> omega
      · rw [if_neg hd] at hm'
        have hz := inv.qZero m' hm'
        refine ⟨hz.1, ?_⟩
        have := hz.2
        rcases eq_or_ne m' m with rfl | hne
        · rw [List.count_cons_self] at this
          omega
        · rwa [List.count_cons_of_ne hne] at this
    · -- complete
      intro t ht htres hcz hmz
      by_cases hd : deg m - 1 = 0
      · rw [if_pos hd]
        rcases eq_or_ne t m with rfl | hne
        · exact List.mem_append.mpr (Or.inr (List.mem_singleton.mpr rfl))
        · refine List.mem_append.mpr (Or.inl ?_)
          exact inv.complete t ht htres hcz
            (by rwa [List.count_cons_of_ne hne])
      · rw [if_neg hd]
        rcases eq_or_ne t m with rfl | hne
        · exfalso
          apply hd
          rw [hdm, hcz, hmz]
          simp
        · exact inv.complete t ht htres hcz (by rwa [List.count_cons_of_ne hne])
    · -- nodup
      by_cases hd : deg m - 1 = 0
      · rw [if_pos hd]
        have hmz : countPred conns (res ++ [n]) m = 0 ∧ ms.count m = 0 := by
          have : (countPred conns (res ++ [n]) m : Int) + (ms.count m : Int) = 0 := by omega
          constructor <;> omega
        obtain ⟨c, hc, hcsrc, hctgt⟩ := inv.msEdge m (List.mem_cons_self m ms)
        have hmn : m ≠ n := by
          intro hmn
          subst hmn
          have := countPred_zero_src_mem hself hc hctgt
          rw [hcsrc] at this
          exact hnres this
        have hmres : m ∉ res := by
          intro hmres
          have hsub := hsorted c hc (hctgt ▸ hmres)
          have : c.src ∈ res := hsub.subset (by simp)
          rw [hcsrc] at this
          exact hnres this
        have hmres' : m ∉ res ++ [n] := by
          rw [List.mem_append]
          rintro (h | h)
          · exact hmres h
          · exact hmn (by simpa using h)
        rw [← List.append_assoc]
        apply List.Nodup.append inv.nodup (List.nodup_singleton m)
        intro x hx hxm
        have hxm' : x = m := by simpa using hxm
        subst hxm'
        rcases List.mem_append.mp hx with h | h
        · exact hmres' h
        · exact hmq h
      · rw [if_neg hd]
        exact inv.nodup
    · -- qSub
      intro m' hm'
      by_cases hd : deg m - 1 = 0
      · rw [if_pos hd] at hm'
        rcases List.mem_append.mp hm' with hq | hmm
        · exact inv.qSub m' hq
        · have hmm' : m' = m := by simpa using hmm
          subst hmm'
          obtain ⟨c, hc, _, hctgt⟩ := inv.msEdge m' (List.mem_cons_self m' ms)
          exact hctgt ▸ (hWF c hc).2
      · rw [if_neg hd] at hm'
        exact inv.qSub m' hm'
    · -- msEdge
      intro m' hm'
      exact inv.msEdge m' (List.mem_cons_of_mem m hm')

/-! ## The outer Kahn loop preserves the invariant -/

lemma kahn_step (conns : List Conn) (nodes : List Nat)
    (hWF : ∀ c ∈ conns, c.src ∈ nodes ∧ c.tgt ∈ nodes) (n : Nat) (qs : List Nat)
    (deg : Nat → Int) (res : List Nat) (inv : KahnInv conns nodes (n :: qs) deg res) :
    KahnInv conns nodes (relaxTargets (adjacencyOf conns n) deg qs).2
      (relaxTargets (adjacencyOf conns n) deg qs).1 (res ++ [n]) := by
  have hnres : n ∉ res := by
    intro h
    exact (List.nodup_append.mp inv.nodup).2.2 h (List.mem_cons_self n qs)
  have hself : countPred conns res n = 0 := inv.qZero n (List.mem_cons_self n qs)
  have init : RelaxInv conns nodes n (res ++ [n]) (adjacencyOf conns n) deg qs := by
    constructor
    · intro t
      rw [inv.degEq t, countPred_snoc conns res n t hnres]
      push_cast
      ring
    · intro m hm
      have h0 := inv.qZero m (List.mem_cons_of_mem n hm)
      rw [countPred_snoc conns res n m hnres] at h0
      constructor <;> omega
    · intro t ht htres' hc0 hm0
      have htres : t ∉ res := fun h => htres' (List.mem_append.mpr (Or.inl h))
      have htn : t ≠ n := fun h => htres' (List.mem_append.mpr (Or.inr (by simp [h])))
      have hz : countPred conns res t = 0 := by
        rw [countPred_snoc conns res n t hnres, hc0, hm0]
      by_contra htq
      exact inv.complete t ht htres
        (fun hmem => (List.mem_cons.mp hmem).elim htn htq) hz
    · rw [← List.append_cons]
      exact inv.nodup
    · intro m hm
      exact inv.qSub m (List.mem_cons_of_mem n hm)
    · intro m hm
      simp only [adjacencyOf, List.mem_map, List.mem_filter, decide_eq_true_eq] at hm
      obtain ⟨c, ⟨hc, hsrc⟩, htgt⟩ := hm
      exact ⟨c, hc, hsrc, htgt⟩
  have fin := relaxTargets_inv conns nodes n res inv.sorted hself hnres hWF
    (adjacencyOf conns n) deg qs init
  constructor
  · intro t
    have := fin.degEq t
    simpa using this
  · exact fin.qSub
  · exact fin.nodup
  · intro t ht htres htq h0
    exact htq (fin.complete t ht htres h0 (by simp))
  · intro m hm
    rcases List.mem_append.mp hm with h | h
    · exact inv.resSub m h
    · have : m = n := by simpa using h
      exact this ▸ inv.qSub n (List.mem_cons_self n qs)
  · intro c hc htgt
    rcases List.mem_append.mp htgt with h | h
    · exact (inv.sorted c hc h).trans (List.sublist_append_left res [n])
    · have htn : c.tgt = n := by simpa using h
      have hsrc : c.src ∈ res := countPred_zero_src_mem hself hc htn
      rw [htn]
      exact List.Sublist.append (List.singleton_sublist.mpr hsrc) (List.Sublist.refl [n])
  · intro m hm
    exact (fin.qZero m hm).1

lemma kahnLoop_post (conns : List Conn) (nodes : List Nat)
    (hWF : ∀ c ∈ conns, c.src ∈ nodes ∧ c.tgt ∈ nodes) :
    ∀ (fuel : Nat) (q : List Nat) (deg : Nat → Int) (res : List Nat),
      KahnInv conns nodes q deg res → nodes.length < res.length + fuel →
      ∃ deg', KahnInv conns nodes [] deg' (kahnLoop conns fuel q deg res).1 := by
  intro fuel
  induction fuel with
  | zero =>
    intro q deg res inv hlen
    exfalso
    have hsub : res.Subperm nodes :=
      List.subperm_of_subset (List.nodup_append.mp inv.nodup).1 (fun a ha => inv.resSub a ha)
    have := hsub.length_le
    omega
  | succ fuel ih =>
    intro q deg res inv hlen
    match q with
    | [] => exact ⟨deg, inv⟩
    | n :: qs =>
      have step := kahn_step conns nodes hWF n qs deg res inv
      rw [kahnLoop]
      exact ih _ _ _ step (by simp; omega)

lemma kahnResult_inv (g : Graph) (hWF : WFGraph g) :
    ∃ deg', KahnInv g.connections g.nodes [] deg' (kahnResult g) := by
  unfold kahnResult
  apply kahnLoop_post g.connections g.nodes hWF.2
  · constructor
    · intro t
      exact initInDegree_eq g.connections t
    · intro m hm
      exact (List.mem_filter.mp hm).1
    · simp only [List.nil_append]
      exact hWF.1.filter _
    · intro t ht _ htq h0
      apply htq
      refine List.mem_filter.mpr ⟨ht, ?_⟩
      rw [decide_eq_true_eq, initInDegree_eq, h0]
      rfl
    · intro m hm
      exact absurd hm (List.not_mem_nil m)
    · intro c _ htgt
      exact absurd htgt (List.not_mem_nil _)
    · intro m hm
      have h := (List.mem_filter.mp hm).2
      rw [decide_eq_true_eq, initInDegree_eq] at h
      exact_mod_cast h
  · omega

/-- The Kahn result is duplicate-free, contains only canvas nodes, respects
the connection order, and every node it misses still has an unprocessed
predecessor. -/
lemma kahn_facts (g : Graph) (hWF : WFGraph g) :
    (kahnResult g).Nodup ∧ (∀ m ∈ kahnResult g, m ∈ g.nodes) ∧
      (∀ c ∈ g.connections, c.tgt ∈ kahnResult g → [c.src, c.tgt].Sublist (kahnResult g)) ∧
      (∀ t ∈ g.nodes, t ∉ kahnResult g → countPred g.connections (kahnResult g) t ≠ 0) := by
  obtain ⟨deg', inv⟩ := kahnResult_inv g hWF
  exact ⟨by simpa using inv.nodup, inv.resSub, inv.sorted,
    fun t ht h0 => inv.complete t ht h0 (List.not_mem_nil t)⟩

/-! ## Ordering facts -/

lemma sublist_pair_indexOf :
    ∀ (l : List Nat), l.Nodup → ∀ a b : Nat, [a, b].Sublist l → l.indexOf a < l.indexOf b := by
  intro l
  induction l with
  | nil =>
    intro _ a b h
    have := h.length_le
    simp at this
  | cons x xs ih =>
    intro hnd a b h
    have hx_nin : x ∉ xs := (List.nodup_cons.mp hnd).1
    have hnd' : xs.Nodup := (List.nodup_cons.mp hnd).2
    cases h with
    | cons _ h' =>
      have ha : a ∈ xs := h'.subset (by simp)
      have hb : b ∈ xs := h'.subset (by simp)
      have hax : x ≠ a := fun hh => hx_nin (hh ▸ ha)
      have hbx : x ≠ b := fun hh => hx_nin (hh ▸ hb)
      rw [List.indexOf_cons_ne _ hax, List.indexOf_cons_ne _ hbx]
      exact Nat.succ_lt_succ (ih hnd' a b h')
    | cons₂ _ h' =>
      have hb : b ∈ xs := h'.subset (by simp)
      have hab : x ≠ b := fun hh => hx_nin (hh ▸ hb)
      rw [List.indexOf_cons_self, List.indexOf_cons_ne _ hab]
      exact Nat.succ_pos _

lemma transGen_indexOf (g : Graph) (l : List Nat) (hnd : l.Nodup)
    (hsorted : ∀ c ∈ g.connections, c.tgt ∈ l → [c.src, c.tgt].Sublist l)
    (hfull : ∀ c ∈ g.connections, c.tgt ∈ l) :
    ∀ a b, Relation.TransGen (hasEdge g) a b → l.indexOf a < l.indexOf b := by
  intro a b h
  induction h with
  | single h1 =>
    obtain ⟨c, hc, hsrc, htgt⟩ := h1
    have := sublist_pair_indexOf l hnd c.src c.tgt (hsorted c hc (hfull c hc))
    rwa [hsrc, htgt] at this
  | tail _ h1 ih =>
    obtain ⟨c, hc, hsrc, htgt⟩ := h1
    have := sublist_pair_indexOf l hnd c.src c.tgt (hsorted c hc (hfull c hc))
    rw [hsrc, htgt] at this
    exact lt_trans ih this

/-- Transitive edge chains strictly decrease under a rank bounding all single
connections; hence such a rank witnesses acyclicity. -/
lemma acyclic_of_rank (g : Graph) (f : Nat → Nat) (h : ∀ a b, hasEdge g a b → f a < f b) :
    Acyclic g := by
  rintro ⟨n, hn⟩
  have key : ∀ a b, Relation.TransGen (hasEdge g) a b → f a < f b := by
    intro a b hab
    induction hab with
    | single h1 => exact h _ _ h1
    | tail _ h1 ih => exact lt_trans ih (h _ _ h1)
  exact lt_irrefl (f n) (key n n hn)

lemma gChain_acyclic : Acyclic gChain := by
  apply acyclic_of_rank gChain id
  rintro a b ⟨c, hc, rfl, rfl⟩
  fin_cases hc <;> decide

lemma gCycle_cyclic : Cyclic gCycle :=
  ⟨0, Relation.TransGen.head (b := 1) ⟨⟨0, 0, 1, 0⟩, by decide, rfl, rfl⟩
    (Relation.TransGen.single ⟨⟨1, 0, 0, 0⟩, by decide, rfl, rfl⟩)⟩

/-- On an acyclic well-formed graph Kahn's loop drains every node: otherwise
the set of missed nodes is nonempty and closed under taking (missed)
predecessors, which pigeonholes into a cycle. -/
lemma kahn_complete (g : Graph) (hWF : WFGraph g) (hA : Acyclic g) :
    ∀ t ∈ g.nodes, t ∈ kahnResult g := by
  classical
  obtain ⟨hnd, hsub, hsorted, hmissing⟩ := kahn_facts g hWF
  by_contra hnotall
  push_neg at hnotall
  obtain ⟨t₀, ht₀, ht₀n⟩ := hnotall
  set S := g.nodes.filter (fun n => decide (n ∉ kahnResult g)) with hS
  have ht₀S : t₀ ∈ S := by
    rw [hS]
    exact List.mem_filter.mpr ⟨ht₀, by simpa using ht₀n⟩
  have hstep : ∀ t ∈ S, ∃ s, s ∈ S ∧ hasEdge g s t := by
    intro t ht
    have htn := List.mem_filter.mp ht
    have h1 : countPred g.connections (kahnResult g) t ≠ 0 :=
      hmissing t htn.1 (by simpa using htn.2)
    obtain ⟨c, hc, hp⟩ := List.countP_pos.mp (Nat.pos_of_ne_zero h1)
    have hp' : c.tgt = t ∧ c.src ∉ kahnResult g := by simpa using hp
    exact ⟨c.src, List.mem_filter.mpr ⟨(hWF.2 c hc).1, by simpa using hp'.2⟩,
      ⟨c, hc, rfl, hp'.1⟩⟩
  let f : Nat → Nat := fun t => if h : ∃ s, s ∈ S ∧ hasEdge g s t then h.choose else 0
  have hf : ∀ t ∈ S, f t ∈ S ∧ hasEdge g (f t) t := by
    intro t ht
    have h := hstep t ht
    simp only [f]
    rw [dif_pos h]
    exact h.choose_spec
  let seq : Nat → Nat := fun k => Nat.rec t₀ (fun _ prev => f prev) k
  have hseqS : ∀ k, seq k ∈ S := by
    intro k
    induction k with
    | zero => exact ht₀S
    | succ k ihk => exact (hf (seq k) ihk).1
  have hedge : ∀ k, hasEdge g (seq (k + 1)) (seq k) := fun k => (hf (seq k) (hseqS k)).2
  have hchain : ∀ d i, Relation.TransGen (hasEdge g) (seq (i + d + 1)) (seq i) := by
    intro d
    induction d with
    | zero => intro i; exact Relation.TransGen.single (hedge i)
    | succ d ihd => intro i; exact Relation.TransGen.head (hedge (i + d + 1)) (ihd i)
  have hmaps : ∀ k ∈ Finset.range (S.length + 1), seq k ∈ S.toFinset :=
    fun k _ => List.mem_toFinset.mpr (hseqS k)
  have hcard : S.toFinset.card < (Finset.range (S.length + 1)).card := by
    rw [Finset.card_range]
    exact Nat.lt_succ_of_le S.toFinset_card_le
  obtain ⟨i, hi, j, hj, hne, heq⟩ :=
    Finset.exists_ne_map_eq_of_card_lt_of_maps_to hcard hmaps
  rcases hne.lt_or_lt with hij | hij
  · have h := hchain (j - i - 1) i
    rw [show i + (j - i - 1) + 1 = j by omega] at h
    rw [heq] at h
    exact hA ⟨seq j, h⟩
  · have h := hchain (i - j - 1) j
    rw [show j + (i - j - 1) + 1 = i by omega] at h
    rw [← heq] at h
    exact hA ⟨seq i, h⟩

/-- C1: for every well-formed acyclic graph, `_topological_sort` succeeds and
returns a sequence containing every canvas node exactly once and nothing
else, in which every connection's source appears strictly before its
target. -/
theorem topological_sort_acyclic (g : Graph) (hWF : WFGraph g) (hA : Acyclic g) :
    ∃ order, topological_sort g = some order ∧
      (∀ n ∈ g.nodes, order.count n = 1) ∧ (∀ n ∈ order, n ∈ g.nodes) ∧
      (∀ c ∈ g.connections, [c.src, c.tgt].Sublist order) := by
  obtain ⟨hnd, hsub, hsorted, hmissing⟩ := kahn_facts g hWF
  have hall := kahn_complete g hWF hA
  have hlen : (kahnResult g).length = g.nodes.length := by
    have h1 : (kahnResult g).Subperm g.nodes :=
      List.subperm_of_subset hnd (fun a ha => hsub a ha)
    have h2 : g.nodes.Subperm (kahnResult g) :=
      List.subperm_of_subset hWF.1 (fun a ha => hall a ha)
    exact le_antisymm h1.length_le h2.length_le
  refine ⟨kahnResult g, ?_, ?_, hsub, ?_⟩
  · simp [topological_sort, hlen]
  · intro n hn
    have h1 : 0 < (kahnResult g).count n := List.count_pos_iff.mpr (hall n hn)
    have h2 : (kahnResult g).count n ≤ 1 := List.nodup_iff_count_le_one.mp hnd n
    omega
  · intro c hc
    exact hsorted c hc (hall c.tgt (hWF.2 c hc).2)

/-- Witness for C1: the chain `0 → 1 → 2` is sorted to a complete,
duplicate-free, order-respecting sequence. -/
theorem topological_sort_acyclic_witness :
    (WFGraph gChain ∧ Acyclic gChain) ∧
      ∃ order, topological_sort gChain = some order ∧
        (∀ n ∈ gChain.nodes, order.count n = 1) ∧ (∀ n ∈ order, n ∈ gChain.nodes) ∧
        (∀ c ∈ gChain.connections, [c.src, c.tgt].Sublist order) :=
  ⟨⟨by decide, gChain_acyclic⟩, topological_sort_acyclic gChain (by decide) gChain_acyclic⟩

/-- C2: for every well-formed graph whose connections contain a cycle, the
Kahn result misses at least one node, `_topological_sort` reports the failure
value `None`, and `execute_graph` aborts returning `False` without invoking
the Level Grouper and without executing any node. -/
theorem cyclic_graph_aborts (g : Graph) (hWF : WFGraph g) (hcyc : Cyclic g) :
    (kahnResult g).length < g.nodes.length ∧ topological_sort g = none ∧
      execute_graph_outcome g = ExecOutcome.cyclicGraph ∧
      (execute_graph_outcome g).earlyReturn = some false ∧
      (execute_graph_outcome g).grouperLevels = Option.none ∧
      (execute_graph_outcome g).nodesExecuted = [] := by
  obtain ⟨hnd, hsub, hsorted, hmissing⟩ := kahn_facts g hWF
  have hle : (kahnResult g).length ≤ g.nodes.length :=
    (List.subperm_of_subset hnd (fun a ha => hsub a ha)).length_le
  have hne : (kahnResult g).length ≠ g.nodes.length := by
    intro hlen
    have hperm : (kahnResult g).Perm g.nodes :=
      (List.subperm_of_subset hnd (fun a ha => hsub a ha)).perm_of_length_le
        (le_of_eq hlen.symm)
    have hall : ∀ t ∈ g.nodes, t ∈ kahnResult g := fun t ht => hperm.symm.subset ht
    obtain ⟨n, hn⟩ := hcyc
    have hfull : ∀ c ∈ g.connections, c.tgt ∈ kahnResult g :=
      fun c hc => hall c.tgt (hWF.2 c hc).2
    exact lt_irrefl _ (transGen_indexOf g (kahnResult g) hnd hsorted hfull n n hn)
  have hsort : topological_sort g = none := by
    unfold topological_sort
    rw [if_pos hne]
  have hnodes : ¬ g.nodes = [] := by
    obtain ⟨n, hn⟩ := hcyc
    obtain ⟨c, hc⟩ : ∃ c, c ∈ g.connections := by
      cases hn with
      | single h => obtain ⟨c, hc, -, -⟩ := h; exact ⟨c, hc⟩
      | tail _ h => obtain ⟨c, hc, -, -⟩ := h; exact ⟨c, hc⟩
    exact List.ne_nil_of_mem (hWF.2 c hc).1
  have houtcome : execute_graph_outcome g = ExecOutcome.cyclicGraph := by
    unfold execute_graph_outcome
    rw [if_neg hnodes, hsort]
  refine ⟨lt_of_le_of_ne hle hne, hsort, houtcome, ?_, ?_, ?_⟩ <;> rw [houtcome] <;> rfl

/-- Witness for C2: the two-cycle `0 → 1 → 0` is rejected and aborts the
run. -/
theorem cyclic_graph_aborts_witness :
    (WFGraph gCycle ∧ Cyclic gCycle) ∧ topological_sort gCycle = none ∧
      execute_graph_outcome gCycle = ExecOutcome.cyclicGraph := by
  have h := cyclic_graph_aborts gCycle (by decide) gCycle_cyclic
  exact ⟨⟨by decide, gCycle_cyclic⟩, h.2.1, h.2.2.1⟩

/-! ## Folded-maximum lemmas -/

lemma le_foldl_max (l : List Nat) (a : Nat) : a ≤ l.foldl max a := by
  induction l generalizing a with
  | nil => exact le_refl a
  | cons x l ih => exact le_trans (le_max_left a x) (ih (max a x))

lemma mem_le_foldl_max {l : List Nat} {x : Nat} (hx : x ∈ l) (a : Nat) : x ≤ l.foldl max a := by
  induction l generalizing a with
  | nil => cases hx
  | cons y l ih =>
    rcases List.mem_cons.mp hx with rfl | h
    · exact le_trans (le_max_right a x) (le_foldl_max l (max a x))
    · exact ih h (max a y)

lemma foldl_max_le {l : List Nat} {a B : Nat} (ha : a ≤ B) (h : ∀ x ∈ l, x ≤ B) :
    l.foldl max a ≤ B := by
  induction l generalizing a with
  | nil => exact ha
  | cons x l ih =>
    exact ih (max_le ha (h x (List.mem_cons_self x l)))
      (fun y hy => h y (List.mem_cons_of_mem x hy))

lemma foldl_max_mono {f g : Nat → Nat} (hfg : ∀ x, f x ≤ g x) (l : List Nat) {a b : Nat}
    (hab : a ≤ b) : (l.map f).foldl max a ≤ (l.map g).foldl max b := by
  induction l generalizing a b with
  | nil => exact hab
  | cons x l ih => exact ih (max_le_max hab (hfg x))

lemma foldl_max_zero_cons (x : Nat) (l : List Nat) : (x :: l).foldl max 0 = l.foldl max x := by
  rw [List.foldl_cons, Nat.zero_max]

/-! ## Characterization of one relaxation step -/

lemma relaxNode_nil {conns : List Conn} {node : Nat} (st : (Nat → Nat) × Bool)
    (h : predecessorsOf conns node = []) : relaxNode conns st node = st := by
  unfold relaxNode
  rw [h]

lemma relaxNode_cons_pos {conns : List Conn} {node p : Nat} {ps : List Nat}
    (st : (Nat → Nat) × Bool) (h : predecessorsOf conns node = p :: ps)
    (hlt : st.1 node < (ps.map st.1).foldl max (st.1 p) + 1) :
    relaxNode conns st node =
      ((fun t => if t = node then (ps.map st.1).foldl max (st.1 p) + 1 else st.1 t), true) := by
  unfold relaxNode
  rw [h]
  dsimp only
  rw [if_pos hlt]

lemma relaxNode_cons_neg {conns : List Conn} {node p : Nat} {ps : List Nat}
    (st : (Nat → Nat) × Bool) (h : predecessorsOf conns node = p :: ps)
    (hlt : ¬ st.1 node < (ps.map st.1).foldl max (st.1 p) + 1) :
    relaxNode conns st node = st := by
  unfold relaxNode
  rw [h]
  dsimp only
  rw [if_neg hlt]

lemma relaxNode_mono (conns : List Conn) (st : (Nat → Nat) × Bool) (node : Nat) :
    ∀ t, st.1 t ≤ (relaxNode conns st node).1 t := by
  intro t
  cases hp : predecessorsOf conns node with
  | nil => rw [relaxNode_nil st hp]
  | cons p ps =>
    by_cases hlt : st.1 node < (ps.map st.1).foldl max (st.1 p) + 1
    · rw [relaxNode_cons_pos st hp hlt]
      dsimp only
      by_cases ht : t = node
      · subst ht
        rw [if_pos rfl]
        exact le_of_lt hlt
      · rw [if_neg ht]
    · rw [relaxNode_cons_neg st hp hlt]

lemma relaxNode_flag (conns : List Conn) (st : (Nat → Nat) × Bool) (node : Nat)
    (h : st.2 = true) : (relaxNode conns st node).2 = true := by
  cases hp : predecessorsOf conns node with
  | nil => rw [relaxNode_nil st hp]; exact h
  | cons p ps =>
    by_cases hlt : st.1 node < (ps.map st.1).foldl max (st.1 p) + 1
    · rw [relaxNode_cons_pos st hp hlt]
    · rw [relaxNode_cons_neg st hp hlt]; exact h

lemma relaxFold_mono (conns : List Conn) :
    ∀ (l : List Nat) (st : (Nat → Nat) × Bool) (t : Nat),
      st.1 t ≤ (l.foldl (relaxNode conns) st).1 t := by
  intro l
  induction l with
  | nil => intro st t; exact le_refl _
  | cons node rest ih =>
    intro st t
    rw [List.foldl_cons]
    exact le_trans (relaxNode_mono conns st node t) (ih (relaxNode conns st node) t)

lemma relaxFold_flag (conns : List Conn) :
    ∀ (l : List Nat) (st : (Nat → Nat) × Bool), st.2 = true →
      (l.foldl (relaxNode conns) st).2 = true := by
  intro l
  induction l with
  | nil => intro st h; exact h
  | cons node rest ih =>
    intro st h
    rw [List.foldl_cons]
    exact ih _ (relaxNode_flag conns st node h)

/-- A pass that reports no change leaves the state untouched and certifies
that every node already satisfies the relaxation inequality. -/
lemma relaxFold_false (conns : List Conn) :
    ∀ (l : List Nat) (st : (Nat → Nat) × Bool),
      (l.foldl (relaxNode conns) st).2 = false →
      l.foldl (relaxNode conns) st = st ∧
        ∀ node ∈ l, ∀ p ps, predecessorsOf conns node = p :: ps →
          ¬ st.1 node < (ps.map st.1).foldl max (st.1 p) + 1 := by
  intro l
  induction l with
  | nil =>
    intro st h
    exact ⟨rfl, by simp⟩
  | cons node rest ih =>
    intro st h
    rw [List.foldl_cons] at h ⊢
    cases hp : predecessorsOf conns node with
    | nil =>
      rw [relaxNode_nil st hp] at h ⊢
      obtain ⟨heq, hrest⟩ := ih st h
      refine ⟨heq, ?_⟩
      intro nd hnd p ps hps
      rcases List.mem_cons.mp hnd with rfl | hmem
      · rw [hp] at hps
        exact absurd hps (by simp)
      · exact hrest nd hmem p ps hps
    | cons p0 ps0 =>
      by_cases hlt : st.1 node < (ps0.map st.1).foldl max (st.1 p0) + 1
      · exfalso
        have hstep : (relaxNode conns st node).2 = true := by
          rw [relaxNode_cons_pos st hp hlt]
        have := relaxFold_flag conns rest _ hstep
        rw [this] at h
        cases h
      · rw [relaxNode_cons_neg st hp hlt] at h ⊢
        obtain ⟨heq, hrest⟩ := ih st h
        refine ⟨heq, ?_⟩
        intro nd hnd p ps hps
        rcases List.mem_cons.mp hnd with rfl | hmem
        · rw [hp] at hps
          injection hps with h1 h2
          subst h1
          subst h2
          exact hlt
        · exact hrest nd hmem p ps hps

lemma relaxLoop_fix (nodes : List Nat) (conns : List Conn) :
    ∀ (fuel : Nat) (d : Nat → Nat), (relaxLoop nodes conns fuel d).2 = true →
      (relaxPass nodes conns (relaxLoop nodes conns fuel d).1).2 = false := by
  intro fuel
  induction fuel with
  | zero =>
    intro d h
    cases h
  | succ fuel ih =>
    intro d h
    rw [relaxLoop] at h ⊢
    by_cases hp : (relaxPass nodes conns d).2 = true
    · rw [if_pos hp] at h ⊢
      exact ih _ h
    · rw [if_neg hp] at h ⊢
      dsimp only
      exact Bool.not_eq_true _ ▸ hp

/-! ## Relaxation preserves the depth invariant and the rank bound -/

lemma relaxNode_DepthInv (conns : List Conn) (nodes : List Nat)
    (st : (Nat → Nat) × Bool) (node : Nat) (hnode : node ∈ nodes)
    (hinv : DepthInv conns nodes st.1) : DepthInv conns nodes (relaxNode conns st node).1 := by
  cases hp : predecessorsOf conns node with
  | nil => rw [relaxNode_nil st hp]; exact hinv
  | cons p ps =>
    by_cases hlt : st.1 node < (ps.map st.1).foldl max (st.1 p) + 1
    · rw [relaxNode_cons_pos st hp hlt]
      have hmono : ∀ x, st.1 x ≤
          (fun t => if t = node then (ps.map st.1).foldl max (st.1 p) + 1 else st.1 t) x := by
        intro x
        dsimp only
        by_cases hx : x = node
        · subst hx
          rw [if_pos rfl]
          exact le_of_lt hlt
        · rw [if_neg hx]
      constructor
      · intro t ht
        dsimp only
        rw [if_neg (fun h : t = node => ht (h ▸ hnode))]
        exact hinv.offNodes t ht
      · intro t hpre
        dsimp only
        rcases eq_or_ne t node with rfl | hne
        · rw [hpre] at hp
          exact absurd hp (by simp)
        · rw [if_neg hne]
          exact hinv.noPreds t hpre
      · intro t q qs hq
        dsimp only
        rcases eq_or_ne t node with rfl | hne
        · rw [if_pos rfl]
          rw [hp] at hq
          injection hq with h1 h2
          subst h1
          subst h2
          exact Nat.succ_le_succ (foldl_max_mono hmono ps (hmono p))
        · rw [if_neg hne]
          exact le_trans (hinv.upper t q qs hq)
            (Nat.succ_le_succ (foldl_max_mono hmono qs (hmono q)))
    · rw [relaxNode_cons_neg st hp hlt]
      exact hinv

lemma relaxNode_bound (conns : List Conn) (nodes : List Nat) (bd : Nat → Nat)
    (hedge : ∀ c ∈ conns, bd c.src < bd c.tgt)
    (hWF : ∀ c ∈ conns, c.src ∈ nodes ∧ c.tgt ∈ nodes)
    (st : (Nat → Nat) × Bool) (node : Nat)
    (hb : ∀ t ∈ nodes, st.1 t ≤ bd t) :
    ∀ t ∈ nodes, (relaxNode conns st node).1 t ≤ bd t := by
  cases hp : predecessorsOf conns node with
  | nil => rw [relaxNode_nil st hp]; exact hb
  | cons p ps =>
    by_cases hlt : st.1 node < (ps.map st.1).foldl max (st.1 p) + 1
    · rw [relaxNode_cons_pos st hp hlt]
      intro t ht
      dsimp only
      rcases eq_or_ne t node with rfl | hne
      · rw [if_pos rfl]
        have hq : ∀ q ∈ p :: ps, st.1 q + 1 ≤ bd t := by
          intro q hqmem
          have hq' : q ∈ predecessorsOf conns t := by rw [hp]; exact hqmem
          simp only [predecessorsOf, List.mem_map, List.mem_filter,
            decide_eq_true_eq] at hq'
          obtain ⟨c, ⟨hc, htgt⟩, hsrc⟩ := hq'
          have h1 : st.1 q ≤ bd q := hb q (hsrc ▸ (hWF c hc).1)
          have h2 : bd q < bd t := by
            have := hedge c hc
            rwa [hsrc, htgt] at this
          omega
        have hfold : (ps.map st.1).foldl max (st.1 p) ≤ bd t - 1 := by
          apply foldl_max_le
          · have := hq p (List.mem_cons_self p ps)
            omega
          · intro x hx
            obtain ⟨q, hqmem, rfl⟩ := List.mem_map.mp hx
            have := hq q (List.mem_cons_of_mem p hqmem)
            omega
        have hpos : 1 ≤ bd t := by
          have := hq p (List.mem_cons_self p ps)
          omega
        omega
      · rw [if_neg hne]
        exact hb t ht
    · rw [relaxNode_cons_neg st hp hlt]
      exact hb

lemma relaxFold_DepthInv (conns : List Conn) (nodes : List Nat) :
    ∀ (l : List Nat), (∀ x ∈ l, x ∈ nodes) → ∀ st : (Nat → Nat) × Bool,
      DepthInv conns nodes st.1 → DepthInv conns nodes (l.foldl (relaxNode conns) st).1 := by
  intro l
  induction l with
  | nil => intro _ st h; exact h
  | cons node rest ih =>
    intro hsub st h
    rw [List.foldl_cons]
    exact ih (fun x hx => hsub x (List.mem_cons_of_mem node hx)) _
      (relaxNode_DepthInv conns nodes st node (hsub node (List.mem_cons_self node rest)) h)

lemma relaxFold_bound (conns : List Conn) (nodes : List Nat) (bd : Nat → Nat)
    (hedge : ∀ c ∈ conns, bd c.src < bd c.tgt)
    (hWF : ∀ c ∈ conns, c.src ∈ nodes ∧ c.tgt ∈ nodes) :
    ∀ (l : List Nat) (st : (Nat → Nat) × Bool),
      (∀ t ∈ nodes, st.1 t ≤ bd t) →
      ∀ t ∈ nodes, (l.foldl (relaxNode conns) st).1 t ≤ bd t := by
  intro l
  induction l with
  | nil => intro st h; exact h
  | cons node rest ih =>
    intro st h
    rw [List.foldl_cons]
    exact ih _ (relaxNode_bound conns nodes bd hedge hWF st node h)

lemma relaxFold_exists_lt (conns : List Conn) :
    ∀ (l : List Nat) (st : (Nat → Nat) × Bool),
      (l.foldl (relaxNode conns) st).2 = true →
      st.2 = true ∨ ∃ node ∈ l, st.1 node < (l.foldl (relaxNode conns) st).1 node := by
  intro l
  induction l with
  | nil => intro st h; exact Or.inl h
  | cons node rest ih =>
    intro st h
    rw [List.foldl_cons] at h ⊢
    rcases ih (relaxNode conns st node) h with hflag | ⟨m, hm, hlt⟩
    · cases hp : predecessorsOf conns node with
      | nil =>
        rw [relaxNode_nil st hp] at hflag
        exact Or.inl hflag
      | cons p ps =>
        by_cases hlt : st.1 node < (ps.map st.1).foldl max (st.1 p) + 1
        · refine Or.inr ⟨node, List.mem_cons_self node rest, ?_⟩
          have h1 : st.1 node < (relaxNode conns st node).1 node := by
            rw [relaxNode_cons_pos st hp hlt]
            dsimp only
            rw [if_pos rfl]
            exact hlt
          exact lt_of_lt_of_le h1 (relaxFold_mono conns rest _ node)
        · rw [relaxNode_cons_neg st hp hlt] at hflag
          exact Or.inl hflag
    · refine Or.inr ⟨m, List.mem_cons_of_mem node hm, ?_⟩
      exact lt_of_le_of_lt (relaxNode_mono conns st node m) hlt

lemma relaxPass_sum_lt (nodes : List Nat) (conns : List Conn) (d : Nat → Nat)
    (h : (relaxPass nodes conns d).2 = true) :
    (nodes.map d).sum < (nodes.map (relaxPass nodes conns d).1).sum := by
  unfold relaxPass at h ⊢
  rcases relaxFold_exists_lt conns nodes (d, false) h with hflag | ⟨node, hm, hlt⟩
  · cases hflag
  · exact List.sum_lt_sum d _ (fun i _ => relaxFold_mono conns nodes (d, false) i)
      ⟨node, hm, hlt⟩

/-! ## The relaxation loop reaches its fixed point under a rank bound -/

lemma relaxLoop_fuel (nodes : List Nat) (conns : List Conn) (bd : Nat → Nat)
    (hedge : ∀ c ∈ conns, bd c.src < bd c.tgt)
    (hWF : ∀ c ∈ conns, c.src ∈ nodes ∧ c.tgt ∈ nodes)
    (hbdN : ∀ t ∈ nodes, bd t ≤ nodes.length) :
    ∀ (fuel : Nat) (d : Nat → Nat), (∀ t ∈ nodes, d t ≤ bd t) →
      nodes.length * nodes.length < fuel + (nodes.map d).sum →
      (relaxLoop nodes conns fuel d).2 = true := by
  intro fuel
  induction fuel with
  | zero =>
    intro d hb hf
    exfalso
    have hsum : (nodes.map d).sum ≤ nodes.length * nodes.length := by
      have hN : ∀ x ∈ nodes.map d, x ≤ nodes.length := by
        intro x hx
        obtain ⟨t, ht, rfl⟩ := List.mem_map.mp hx
        exact le_trans (hb t ht) (hbdN t ht)
      have := List.sum_le_card_nsmul (nodes.map d) nodes.length hN
      simpa [smul_eq_mul] using this
    omega
  | succ fuel ih =>
    intro d hb hf
    rw [relaxLoop]
    by_cases hp : (relaxPass nodes conns d).2 = true
    · rw [if_pos hp]
      apply ih
      · intro t ht
        exact relaxFold_bound conns nodes bd hedge hWF nodes (d, false) hb t ht
      · have := relaxPass_sum_lt nodes conns d hp
        omega
    · rw [if_neg hp]

lemma relaxLoop_DepthInv (nodes : List Nat) (conns : List Conn) :
    ∀ (fuel : Nat) (d : Nat → Nat), DepthInv conns nodes d →
      DepthInv conns nodes (relaxLoop nodes conns fuel d).1 := by
  intro fuel
  induction fuel with
  | zero => intro d h; exact h
  | succ fuel ih =>
    intro d h
    rw [relaxLoop]
    by_cases hp : (relaxPass nodes conns d).2 = true
    · rw [if_pos hp]
      exact ih _ (relaxFold_DepthInv conns nodes nodes (fun x hx => hx) (d, false) h)
    · rw [if_neg hp]
      exact h

lemma DepthInv_init (conns : List Conn) (nodes : List Nat) :
    DepthInv conns nodes (fun _ => 0) := by
  refine ⟨fun _ _ => rfl, fun _ _ => rfl, fun t p ps _ => ?_⟩
  exact Nat.zero_le _

/-! ## The Level Grouper's loop terminates on acyclic graphs -/

/-- On a well-formed acyclic graph the relaxation of
`_group_by_execution_level` reaches its fixed point within the fuel (the
source's `while changed:` loop terminates), because depths stay bounded by
the node's position in the topological order. -/
lemma depthResult_fix (g : Graph) (hWF : WFGraph g) (hA : Acyclic g) :
    (depthResult g).2 = true := by
  obtain ⟨hnd, hsub, hsorted, hmissing⟩ := kahn_facts g hWF
  have hall := kahn_complete g hWF hA
  have hedge : ∀ c ∈ g.connections,
      (kahnResult g).indexOf c.src < (kahnResult g).indexOf c.tgt := by
    intro c hc
    exact sublist_pair_indexOf (kahnResult g) hnd c.src c.tgt
      (hsorted c hc (hall c.tgt (hWF.2 c hc).2))
  have hbdN : ∀ t ∈ g.nodes, (kahnResult g).indexOf t ≤ g.nodes.length := by
    intro t ht
    have h1 : (kahnResult g).indexOf t < (kahnResult g).length :=
      List.indexOf_lt_length.mpr (hall t ht)
    have h2 : (kahnResult g).length ≤ g.nodes.length :=
      (List.subperm_of_subset hnd (fun a ha => hsub a ha)).length_le
    omega
  unfold depthResult
  apply relaxLoop_fuel g.nodes g.connections (fun t => (kahnResult g).indexOf t)
    hedge hWF.2 hbdN
  · intro t _
    exact Nat.zero_le _
  · simp

lemma depthResult_DepthInv (g : Graph) :
    DepthInv g.connections g.nodes (depthResult g).1 := by
  unfold depthResult
  exact relaxLoop_DepthInv g.nodes g.connections _ _ (DepthInv_init g.connections g.nodes)

/-- At the fixed point every node with predecessors has depth at least one
more than the maximum predecessor depth. -/
lemma depth_fix_ge (g : Graph) (hfix : (depthResult g).2 = true) :
    ∀ node ∈ g.nodes, ∀ p ps, predecessorsOf g.connections node = p :: ps →
      ((ps.map (depthResult g).1).foldl max ((depthResult g).1 p)) + 1 ≤
        (depthResult g).1 node := by
  intro node hn p ps hp
  have h1 : (relaxPass g.nodes g.connections (depthResult g).1).2 = false := by
    unfold depthResult at hfix ⊢
    exact relaxLoop_fix g.nodes g.connections _ _ hfix
  have h2 := (relaxFold_false g.connections g.nodes ((depthResult g).1, false)
    (by unfold relaxPass at h1; exact h1)).2 node hn p ps hp
  dsimp only at h2
  omega

lemma preds_nil_iff (conns : List Conn) (t : Nat) :
    predecessorsOf conns t = [] ↔ ∀ c ∈ conns, c.tgt ≠ t := by
  unfold predecessorsOf
  simp

/-! ## Claim theorems C3 and C4 -/

/-- C3: on every well-formed acyclic graph the Level Grouper's relaxation
terminates and the computed depth satisfies, for every node: depth zero
exactly when the node has no incoming connection, and otherwise one plus the
maximum depth over its direct predecessors. -/
theorem level_depth_equations (g : Graph) (hWF : WFGraph g) (hA : Acyclic g) :
    (depthResult g).2 = true ∧
    ∀ n ∈ g.nodes,
      ((depthResult g).1 n = 0 ↔ ∀ c ∈ g.connections, c.tgt ≠ n) ∧
      ((∃ c ∈ g.connections, c.tgt = n) →
        (depthResult g).1 n =
          1 + ((predecessorsOf g.connections n).map (depthResult g).1).foldl max 0) := by
  have hfix := depthResult_fix g hWF hA
  have hinv := depthResult_DepthInv g
  have hge := depth_fix_ge g hfix
  refine ⟨hfix, ?_⟩
  intro n hn
  constructor
  · constructor
    · intro h0
      rw [← preds_nil_iff]
      cases hp : predecessorsOf g.connections n with
      | nil => rfl
      | cons p ps =>
        exfalso
        have := hge n hn p ps hp
        omega
    · intro hno
      exact hinv.noPreds n ((preds_nil_iff g.connections n).mpr hno)
  · rintro ⟨c, hc, htgt⟩
    cases hp : predecessorsOf g.connections n with
    | nil =>
      exact absurd htgt ((preds_nil_iff g.connections n).mp hp c hc)
    | cons p ps =>
      have h1 := hge n hn p ps hp
      have h2 := hinv.upper n p ps hp
      have h3 : (depthResult g).1 n =
          (ps.map (depthResult g).1).foldl max ((depthResult g).1 p) + 1 :=
        le_antisymm h2 h1
      rw [h3, List.map_cons, foldl_max_zero_cons]
      omega

/-- Witness for C3: the chain `0 → 1 → 2` gets depths satisfying the
equations. -/
theorem level_depth_equations_witness :
    (WFGraph gChain ∧ Acyclic gChain) ∧
      ((depthResult gChain).2 = true ∧
        ∀ n ∈ gChain.nodes,
          ((depthResult gChain).1 n = 0 ↔ ∀ c ∈ gChain.connections, c.tgt ≠ n) ∧
          ((∃ c ∈ gChain.connections, c.tgt = n) →
            (depthResult gChain).1 n =
              1 + ((predecessorsOf gChain.connections n).map
                (depthResult gChain).1).foldl max 0)) :=
  ⟨⟨by decide, gChain_acyclic⟩, level_depth_equations gChain (by decide) gChain_acyclic⟩

/-- C4: whenever the Level Grouper's relaxation terminates (which it does for
every graph on which the source's loop returns at all, in particular every
acyclic one), no connection joins two nodes of the same level: the source and
target of every connection land in different levels. -/
theorem same_level_not_connected (g : Graph) (_hWF : WFGraph g)
    (hfix : (depthResult g).2 = true) :
    ∀ c ∈ g.connections, ∀ L ∈ group_by_execution_level g, c.src ∈ L → c.tgt ∉ L := by
  intro c hc L hL hsrc htgt
  have hge := depth_fix_ge g hfix
  simp only [group_by_execution_level, List.mem_map, List.mem_range] at hL
  obtain ⟨i, hi, hLeq⟩ := hL
  subst hLeq
  have h1 : (depthResult g).1 c.src = i := by
    have := (List.mem_filter.mp hsrc).2
    simpa using this
  have h2 : (depthResult g).1 c.tgt = i := by
    have := (List.mem_filter.mp htgt).2
    simpa using this
  have htn : c.tgt ∈ g.nodes := (List.mem_filter.mp htgt).1
  have hsrcpred : c.src ∈ predecessorsOf g.connections c.tgt := by
    simp only [predecessorsOf, List.mem_map, List.mem_filter, decide_eq_true_eq]
    exact ⟨c, ⟨hc, rfl⟩, rfl⟩
  cases hp : predecessorsOf g.connections c.tgt with
  | nil =>
    rw [hp] at hsrcpred
    cases hsrcpred
  | cons p ps =>
    rw [hp] at hsrcpred
    have hg := hge c.tgt htn p ps hp
    have hle : (depthResult g).1 c.src ≤
        (ps.map (depthResult g).1).foldl max ((depthResult g).1 p) := by
      rcases List.mem_cons.mp hsrcpred with heq | hmem
      · rw [heq]
        exact le_foldl_max _ _
      · exact mem_le_foldl_max (List.mem_map_of_mem _ hmem) _
    omega

/-- Witness for C4: in the diamond `0 → 1, 0 → 2, 1 → 3, 2 → 3` no
connection joins two nodes of one level. -/
theorem same_level_not_connected_witness :
    (WFGraph gDiamond ∧ (depthResult gDiamond).2 = true) ∧
      ∀ c ∈ gDiamond.connections, ∀ L ∈ group_by_execution_level gDiamond,
        c.src ∈ L → c.tgt ∉ L :=
  ⟨⟨by decide, by decide⟩, same_level_not_connected gDiamond (by decide) (by decide)⟩

end Assets
